import Mathlib

/-
Shallow embedding of the Vireon TRP "leash" components.

Source files embedded:
  * src/vireon_trp/leash.py           (class KLLeash)
  * src/vireon_trp/quantum/kl_leash.py (VireonQLConfig, VireonQLLeash)

Python floats are modelled as exact rationals (for the discrete
distribution leash, whose operations are field operations) and as real
numbers (for the Gaussian leash, which uses sqrt, and for the KL sum,
which uses log).  numpy / torch array semantics that the code relies on
(1-d broadcasting, `convolve` in valid mode, elementwise ops) are
embedded explicitly below, following the numpy documentation and source.
-/

namespace VireonTRP

namespace KLLeash

/-- Configuration stored by `KLLeash.__init__` (leash.py lines 12-15).
The constructor performs no validation: it merely stores the fields. -/
structure Config where
  eps : ℚ
  yellow_days : ℕ
  red_days : ℕ

/-- The clipping step of `_to_dist` (leash.py line 19):
`np.clip(v, eps, None)` replaces every entry by `max entry eps`. -/
def clipFloor (eps : ℚ) (v : List ℚ) : List ℚ :=
  v.map (fun x => max x eps)

/-- `KLLeash._to_dist` (leash.py lines 17-20): clip to the floor `eps`,
then divide by the sum of the clipped vector. -/
def toDist (eps : ℚ) (v : List ℚ) : List ℚ :=
  (clipFloor eps v).map (fun x => x / (clipFloor eps v).sum)

lemma clipFloor_ne_nil (eps : ℚ) {v : List ℚ} (hv : v ≠ []) :
    clipFloor eps v ≠ [] := by
  cases v with
  | nil => exact absurd rfl hv
  | cons a l => simp [clipFloor]

lemma mem_clipFloor_ge (eps : ℚ) {v : List ℚ} {x : ℚ}
    (hx : x ∈ clipFloor eps v) : eps ≤ x := by
  rcases List.mem_map.mp hx with ⟨a, _, rfl⟩
  exact le_max_right a eps

lemma clipFloor_sum_pos {eps : ℚ} {v : List ℚ} (heps : 0 < eps)
    (hv : v ≠ []) : 0 < (clipFloor eps v).sum := by
  refine List.sum_pos _ ?_ (clipFloor_ne_nil eps hv)
  intro x hx
  exact lt_of_lt_of_le heps (mem_clipFloor_ge eps hx)

lemma sum_map_div (l : List ℚ) (c : ℚ) :
    (l.map (fun x => x / c)).sum = l.sum / c := by
  induction l with
  | nil => simp
  | cons a t ih => simp [ih, add_div]

lemma toDist_length (eps : ℚ) (v : List ℚ) :
    (toDist eps v).length = v.length := by
  simp [toDist, clipFloor]

/-- numpy 1-d broadcasting of a binary elementwise operation, as used by
`KLLeash.kl` (leash.py line 25): two 1-d arrays combine elementwise when the
lengths agree; a length-1 array is stretched against the other; any other
length combination raises a broadcast error (modelled as `none`). -/
def broadcast2 (f : ℝ → ℝ → ℝ) (xs ys : List ℝ) : Option (List ℝ) :=
  if xs.length = ys.length then some (List.zipWith f xs ys)
  else if xs.length = 1 then some (ys.map (f xs.headI))
  else if ys.length = 1 then some (xs.map (fun x => f x ys.headI))
  else none

/-- `KLLeash.kl` (leash.py lines 22-25):
`np.sum(p * np.log((p + eps) / (q + eps)))` with `p = _to_dist(S_t)` and
`q = _to_dist(S0)`.  The two elementwise combinations (the quotient and the
product with `p`) follow numpy broadcasting; a broadcast failure is the
shape-mismatch error surfaced to the caller. -/
noncomputable def kl (eps : ℚ) (St S0 : List ℚ) : Option ℝ :=
  let p : List ℝ := (toDist eps St).map (Rat.cast : ℚ → ℝ)
  let q : List ℝ := (toDist eps S0).map (Rat.cast : ℚ → ℝ)
  (broadcast2 (fun a b => (a + (eps : ℝ)) / (b + (eps : ℝ))) p q).bind
    fun ratio =>
      (broadcast2 (fun a b => a * b) p (ratio.map Real.log)).map
        fun terms => terms.sum

lemma broadcast2_eq_length {f : ℝ → ℝ → ℝ} {xs ys : List ℝ}
    (h : xs.length = ys.length) :
    broadcast2 f xs ys = some (List.zipWith f xs ys) := by
  simp [broadcast2, h]

lemma broadcast2_left_one {f : ℝ → ℝ → ℝ} {xs : List ℝ} (ys : List ℝ)
    (h : xs.length = 1) :
    broadcast2 f xs ys = some (ys.map (f xs.headI)) := by
  rcases eq_or_ne xs.length ys.length with he | hne
  · rcases List.length_eq_one.mp h with ⟨a, rfl⟩
    rcases List.length_eq_one.mp (h ▸ he.symm) with ⟨b, rfl⟩
    simp [broadcast2]
  · have hne1 : (1 : ℕ) ≠ ys.length := by rw [h] at hne; exact hne
    simp [broadcast2, h, hne1]

lemma broadcast2_right_one {f : ℝ → ℝ → ℝ} {ys : List ℝ} (xs : List ℝ)
    (h : ys.length = 1) (h1 : xs.length ≠ 1) :
    broadcast2 f xs ys = some (xs.map (fun x => f x ys.headI)) := by
  simp [broadcast2, h, h1]

lemma broadcast2_none {f : ℝ → ℝ → ℝ} {xs ys : List ℝ}
    (hne : xs.length ≠ ys.length) (hx : xs.length ≠ 1) (hy : ys.length ≠ 1) :
    broadcast2 f xs ys = none := by
  simp [broadcast2, hne, hx, hy]

/-- Length analysis of the two broadcasting stages of `kl`: the whole
computation fails exactly when the two distributions have different lengths
and neither has length one. -/
lemma klCore_none_iff (f g : ℝ → ℝ → ℝ) (p q : List ℝ) :
    ((broadcast2 f p q).bind fun ratio =>
        (broadcast2 g p (ratio.map Real.log)).map fun terms => terms.sum) =
      none ↔
      (p.length ≠ q.length ∧ p.length ≠ 1 ∧ q.length ≠ 1) := by
  rcases eq_or_ne p.length q.length with he | hne
  · rw [broadcast2_eq_length he]
    have hlen : p.length = ((List.zipWith f p q).map Real.log).length := by
      simp [List.length_zipWith, ← he]
    rw [Option.some_bind, broadcast2_eq_length hlen]
    simp [he]
  · rcases eq_or_ne p.length 1 with h1 | h1
    · rw [broadcast2_left_one q h1, Option.some_bind, broadcast2_left_one _ h1]
      simp [hne, h1]
    · rcases eq_or_ne q.length 1 with hq1 | hq1
      · rw [broadcast2_right_one p hq1 h1, Option.some_bind]
        have hlen : p.length =
            ((p.map (fun x => f x q.headI)).map Real.log).length := by simp
        rw [broadcast2_eq_length hlen]
        simp [hne, h1, hq1]
      · rw [broadcast2_none hne h1 hq1]
        simp [hne, h1, hq1]

lemma toDist_mem_pos {eps : ℚ} {v : List ℚ} {x : ℚ} (heps : 0 < eps)
    (hv : v ≠ []) (hx : x ∈ toDist eps v) : 0 < x := by
  rcases List.mem_map.mp hx with ⟨a, ha, rfl⟩
  exact div_pos (lt_of_lt_of_le heps (mem_clipFloor_ge eps ha))
    (clipFloor_sum_pos heps hv)

lemma toDist_sum_one {eps : ℚ} {v : List ℚ} (heps : 0 < eps)
    (hv : v ≠ []) : (toDist eps v).sum = 1 := by
  rw [toDist, sum_map_div]
  exact div_self (ne_of_gt (clipFloor_sum_pos heps hv))

/-- Scaling every raw entry by `c ≥ 1` leaves the distribution proxy
unchanged when every entry is already at least the floor: the clipping is a
no-op on both vectors and normalization cancels the common factor. -/
lemma toDist_scale {eps c : ℚ} {v : List ℚ} (heps : 0 < eps) (hc : 1 ≤ c)
    (hv : ∀ x ∈ v, eps ≤ x) :
    toDist eps (v.map (fun x => c * x)) = toDist eps v := by
  have hx0 : ∀ x ∈ v, (0 : ℚ) ≤ x := fun x hx => le_trans heps.le (hv x hx)
  have hclip : clipFloor eps v = v := by
    rw [clipFloor]
    have h := List.map_congr_left (f := fun x => max x eps) (g := fun x => x)
      (fun x (hx : x ∈ v) => max_eq_left (hv x hx))
    simpa using h
  have hclipc : clipFloor eps (v.map (fun x => c * x)) = v.map (fun x => c * x) := by
    rw [clipFloor, List.map_map]
    refine List.map_congr_left fun x hx => ?_
    have : eps ≤ c * x := le_trans (hv x hx) (le_mul_of_one_le_left (hx0 x hx) hc)
    simpa using max_eq_left this
  have hc0 : c ≠ 0 := by positivity
  have hsum : (v.map (fun x => c * x)).sum = c * v.sum := by
    have := List.sum_map_mul_left v (fun x => x) c
    simpa using this
  rw [toDist, toDist, hclip, hclipc, hsum, List.map_map]
  refine List.map_congr_left fun x hx => ?_
  simp [mul_div_mul_left x v.sum hc0]

/-- Each elementwise term of the KL sum vanishes when the two distributions
coincide: every entry multiplies `log 1 = 0`. -/
lemma zip_log_ratio_sum_zero (e : ℝ) (p : List ℝ)
    (hp : ∀ a ∈ p, 0 < a + e) :
    (List.zipWith (fun a b => a * b) p
      ((List.zipWith (fun a b => (a + e) / (b + e)) p p).map Real.log)).sum
      = 0 := by
  induction p with
  | nil => simp
  | cons a t ih =>
    have ha : 0 < a + e := hp a (List.mem_cons_self a t)
    have ht := ih (fun x hx => hp x (List.mem_cons_of_mem _ hx))
    simp only [List.zipWith_cons_cons, List.map_cons, List.sum_cons]
    rw [div_self (ne_of_gt ha), Real.log_one, mul_zero, zero_add]
    exact ht

lemma kl_none_iff (eps : ℚ) (St S0 : List ℚ) :
    kl eps St S0 = none ↔
      St.length ≠ S0.length ∧ St.length ≠ 1 ∧ S0.length ≠ 1 := by
  have h := klCore_none_iff
    (fun a b => (a + (eps : ℝ)) / (b + (eps : ℝ))) (fun a b => a * b)
    ((toDist eps St).map (Rat.cast : ℚ → ℝ))
    ((toDist eps S0).map (Rat.cast : ℚ → ℝ))
  simpa [kl, toDist_length] using h

/-- numpy `np.convolve(a, np.ones(w), mode = 'valid')` for an integer signal
`a` and an all-ones kernel of width `w` (leash.py lines 38-43).  numpy
raises a ValueError when either array is empty (`w = 0` or `a = []`);
otherwise valid mode keeps exactly the full-overlap positions: the sliding
sums of width `w` when `w ≤ len a`, and `w - len a + 1` copies of the total
sum when the kernel is longer than the signal. -/
def convolveValidOnes (w : ℕ) (a : List ℕ) : Option (List ℕ) :=
  if w = 0 ∨ a.length = 0 then none
  else if w ≤ a.length then
    some ((List.range (a.length - w + 1)).map fun i => ((a.drop i).take w).sum)
  else some (List.replicate (w - a.length + 1) a.sum)

/-- The three zone labels returned by `KLLeash.zone` (GREEN/YELLOW/RED are
the source's names for the spec's STABLE/WARNING/CRITICAL). -/
inductive Zone where
  | GREEN
  | YELLOW
  | RED
deriving DecidableEq

/-- Severity order STABLE < WARNING < CRITICAL. -/
def Zone.severity : Zone → ℕ
  | .GREEN => 0
  | .YELLOW => 1
  | .RED => 2

/-- The 0/1 threshold indicators `(ks >= thr).astype(int)` (leash.py
lines 38, 41). -/
def indicator (thr : ℚ) (ks : List ℚ) : List ℕ :=
  ks.map fun k => if thr ≤ k then 1 else 0

/-- `KLLeash.zone` (leash.py lines 27-49): spike check, then both windowed
convolutions (yellow first, as in the source), then the red-run check, the
yellow-run check, and GREEN.  A failing convolution (empty series or empty
kernel) is the raised ValueError, modelled as `none`. -/
def zone (c : Config) (ks : List ℚ) (yellow_thr red_thr : ℚ) : Option Zone :=
  if ks.any fun k => decide (2 * red_thr ≤ k) then some .RED
  else
    (convolveValidOnes c.yellow_days (indicator yellow_thr ks)).bind
      fun yellow_run =>
        (convolveValidOnes c.red_days (indicator red_thr ks)).bind
          fun red_run =>
            if red_run.any fun s => decide (c.red_days ≤ s) then some .RED
            else if yellow_run.any fun s => decide (c.yellow_days ≤ s) then
              some .YELLOW
            else some .GREEN

/-- Modelled from the spec's words: "at least `window` consecutive points
at/above threshold" — some start position `i` has `w` consecutive true
indicators. -/
def hasRun (w : ℕ) (bs : List Bool) : Bool :=
  (List.range (bs.length + 1 - w)).any fun i => ((bs.drop i).take w).all id

/-- Modelled from the spec's words: the four-step zone policy in precedence
order (spike override, critical run, warning run, stable), with a qualifying
run meaning consecutive points.  Stated for comparison with `zone`. -/
def zoneSpec (c : Config) (ks : List ℚ) (yellow_thr red_thr : ℚ) : Zone :=
  if ks.any fun k => decide (2 * red_thr ≤ k) then .RED
  else if hasRun c.red_days (ks.map fun k => decide (red_thr ≤ k)) then .RED
  else if hasRun c.yellow_days (ks.map fun k => decide (yellow_thr ≤ k)) then
    .YELLOW
  else .GREEN

/-- 0/1 value of a boolean indicator. -/
def boolInd (b : Bool) : ℕ := if b then 1 else 0

lemma indicator_eq_map (thr : ℚ) (ks : List ℚ) :
    indicator thr ks = (ks.map fun k => decide (thr ≤ k)).map boolInd := by
  rw [indicator, List.map_map]
  refine List.map_congr_left fun k _ => ?_
  by_cases h : thr ≤ k <;> simp [h, boolInd]

lemma sum_map_boolInd_le (l : List Bool) : (l.map boolInd).sum ≤ l.length := by
  induction l with
  | nil => simp
  | cons b t ih =>
    have hb : boolInd b ≤ 1 := by cases b <;> simp [boolInd]
    simp only [List.map_cons, List.sum_cons, List.length_cons]
    omega

lemma sum_map_boolInd_eq_iff (l : List Bool) :
    (l.map boolInd).sum = l.length ↔ l.all id = true := by
  induction l with
  | nil => simp
  | cons b t ih =>
    cases b with
    | true => simp [boolInd, ih, Nat.add_comm]
    | false =>
      have hle := sum_map_boolInd_le t
      simp only [List.map_cons, List.sum_cons, List.length_cons, boolInd,
        Bool.false_eq_true, if_false, zero_add]
      constructor
      · intro h; exfalso; omega
      · intro h; simp at h

lemma any_replicate_pos {n : ℕ} (hn : n ≠ 0) (x : ℕ) (p : ℕ → Bool) :
    (List.replicate n x).any p = p x := by
  induction n with
  | zero => exact absurd rfl hn
  | succ m ih =>
    rcases eq_or_ne m 0 with rfl | hm
    · simp
    · simp [List.replicate_succ, ih hm]

lemma decide_le_sum_eq_all {w : ℕ} (win : List Bool) (hwin : win.length = w) :
    decide (w ≤ (win.map boolInd).sum) = win.all id := by
  have hle := sum_map_boolInd_le win
  cases h : win.all id with
  | false =>
    have hne : (win.map boolInd).sum ≠ w := by
      intro hs
      have := (sum_map_boolInd_eq_iff win).mp (by rw [hs, hwin])
      rw [this] at h
      exact Bool.noConfusion h
    apply decide_eq_false
    omega
  | true =>
    have hsum := (sum_map_boolInd_eq_iff win).mpr h
    apply decide_eq_true
    omega

lemma any_congr {α : Type} {l : List α} {p q : α → Bool}
    (h : ∀ x ∈ l, p x = q x) : l.any p = l.any q := by
  induction l with
  | nil => rfl
  | cons a t ih =>
    simp only [List.any_cons]
    rw [h a (List.mem_cons_self a t), ih fun x hx => h x (List.mem_cons_of_mem _ hx)]

/-- Central equivalence: the convolution-based sliding-window test of the
source agrees with the consecutive-run test of the spec, for a positive
window and a non-empty indicator series. -/
lemma conv_any_eq_hasRun {w : ℕ} (hw : 1 ≤ w) {bs : List Bool}
    (hbs : bs ≠ []) :
    ∃ cv, convolveValidOnes w (bs.map boolInd) = some cv ∧
      (cv.any fun s => decide (w ≤ s)) = hasRun w bs := by
  have hlen : (bs.map boolInd).length = bs.length := List.length_map _ _
  have hbs0 : bs.length ≠ 0 := fun h => hbs (List.length_eq_zero.mp h)
  have hcond : ¬(w = 0 ∨ (bs.map boolInd).length = 0) := by
    rw [hlen]; omega
  by_cases hcase : w ≤ bs.length
  · have hconv : convolveValidOnes w (bs.map boolInd) =
        some ((List.range ((bs.map boolInd).length - w + 1)).map fun i =>
          (((bs.map boolInd).drop i).take w).sum) := by
      rw [convolveValidOnes, if_neg hcond, if_pos (by rw [hlen]; exact hcase)]
    refine ⟨_, hconv, ?_⟩
    rw [hlen, hasRun]
    have hridx : bs.length - w + 1 = bs.length + 1 - w := by omega
    rw [← hridx, List.any_map]
    refine any_congr fun i hi => ?_
    have hiw : i + w ≤ bs.length := by
      have := List.mem_range.mp hi
      omega
    have hwin : ((bs.drop i).take w).length = w := by
      rw [List.length_take, List.length_drop]
      omega
    have hmt : ((bs.map boolInd).drop i).take w =
        ((bs.drop i).take w).map boolInd := by
      simp [List.map_take, List.map_drop]
    simp only [Function.comp_apply]
    rw [hmt, decide_le_sum_eq_all _ hwin]
  · have hconv : convolveValidOnes w (bs.map boolInd) =
        some (List.replicate (w - (bs.map boolInd).length + 1)
          (bs.map boolInd).sum) := by
      rw [convolveValidOnes, if_neg hcond, if_neg (by rw [hlen]; exact hcase)]
    refine ⟨_, hconv, ?_⟩
    have hsum := sum_map_boolInd_le bs
    rw [hlen, any_replicate_pos (by omega), hasRun]
    have hz0 : bs.length + 1 - w = 0 := by omega
    rw [hz0]
    simp only [List.range_zero, List.any_nil]
    apply decide_eq_false
    omega

/-- A successful convolution forces a positive window and a non-empty
signal. -/
lemma convolve_some_conditions {w : ℕ} {a : List ℕ} {cv : List ℕ}
    (h : convolveValidOnes w a = some cv) : w ≠ 0 ∧ a.length ≠ 0 := by
  by_cases hc : w = 0 ∨ a.length = 0
  · rw [convolveValidOnes, if_pos hc] at h
    exact Option.noConfusion h
  · push_neg at hc
    exact hc

/-- The source's `zone` agrees with the spec's four-step policy on every
non-empty series with positive windows. -/
lemma zone_eq_zoneSpec (c : Config) (ks : List ℚ) (y r : ℚ)
    (hks : ks ≠ []) (hyw : 1 ≤ c.yellow_days) (hrw : 1 ≤ c.red_days) :
    zone c ks y r = some (zoneSpec c ks y r) := by
  have hbsY : (ks.map fun k => decide (y ≤ k)) ≠ [] := by
    simpa [List.map_eq_nil_iff] using hks
  have hbsR : (ks.map fun k => decide (r ≤ k)) ≠ [] := by
    simpa [List.map_eq_nil_iff] using hks
  obtain ⟨cvY, hY, hYany⟩ := conv_any_eq_hasRun hyw hbsY
  obtain ⟨cvR, hR, hRany⟩ := conv_any_eq_hasRun hrw hbsR
  rw [zone, zoneSpec, indicator_eq_map y ks, indicator_eq_map r ks, hY, hR]
  by_cases hs : (ks.any fun k => decide (2 * r ≤ k)) = true
  · rw [if_pos hs, if_pos hs]
  · rw [if_neg hs, if_neg hs, Option.some_bind, Option.some_bind, hYany, hRany]
    by_cases h1 : hasRun c.red_days (ks.map fun k => decide (r ≤ k)) = true
    · rw [if_pos h1, if_pos h1]
    · rw [if_neg h1, if_neg h1]
      by_cases h2 : hasRun c.yellow_days (ks.map fun k => decide (y ≤ k)) = true
      · rw [if_pos h2, if_pos h2]
      · rw [if_neg h2, if_neg h2]

lemma hasRun_mono {w : ℕ} {ks : List ℚ} {f g : ℚ → Bool}
    (hfg : ∀ k ∈ ks, f k = true → g k = true)
    (h : hasRun w (ks.map f) = true) : hasRun w (ks.map g) = true := by
  rw [hasRun, List.any_eq_true] at h ⊢
  obtain ⟨i, hi, hall⟩ := h
  rw [List.length_map] at hi
  refine ⟨i, by rw [List.length_map]; exact hi, ?_⟩
  have hdt : ∀ (p : ℚ → Bool), ((ks.map p).drop i).take w =
      ((ks.drop i).take w).map p := by
    intro p; simp [List.map_take, List.map_drop]
  rw [hdt f, List.all_eq_true] at hall
  rw [hdt g, List.all_eq_true]
  intro x hx
  rcases List.mem_map.mp hx with ⟨k, hk, rfl⟩
  have hks : k ∈ ks := List.drop_subset i ks (List.take_subset w _ hk)
  have hf : f k = true := by simpa using hall (f k) (List.mem_map_of_mem f hk)
  simpa using hfg k hks hf

lemma spike_mono {ks : List ℚ} {r r' : ℚ} (hr : r' ≤ r)
    (h : (ks.any fun k => decide (2 * r ≤ k)) = true) :
    (ks.any fun k => decide (2 * r' ≤ k)) = true := by
  rw [List.any_eq_true] at h ⊢
  obtain ⟨k, hk, hd⟩ := h
  refine ⟨k, hk, ?_⟩
  have := of_decide_eq_true hd
  exact decide_eq_true (by linarith)

lemma severity_le_two (z : Zone) : z.severity ≤ 2 := by
  cases z <;> simp [Zone.severity]

/-- The spec policy never becomes less severe when thresholds are
lowered. -/
lemma zoneSpec_severity_mono (c : Config) (ks : List ℚ) {y y' r r' : ℚ}
    (hy : y' ≤ y) (hr : r' ≤ r) :
    (zoneSpec c ks y r).severity ≤ (zoneSpec c ks y' r').severity := by
  have hindR : ∀ k ∈ ks, decide (r ≤ k) = true → decide (r' ≤ k) = true := by
    intro k _ hd
    have := of_decide_eq_true hd
    exact decide_eq_true (by linarith)
  have hindY : ∀ k ∈ ks, decide (y ≤ k) = true → decide (y' ≤ k) = true := by
    intro k _ hd
    have := of_decide_eq_true hd
    exact decide_eq_true (by linarith)
  rw [zoneSpec, zoneSpec]
  by_cases h1 : (ks.any fun k => decide (2 * r ≤ k)) = true
  · rw [if_pos h1, if_pos (spike_mono hr h1)]
  · rw [if_neg h1]
    by_cases h1' : (ks.any fun k => decide (2 * r' ≤ k)) = true
    · rw [if_pos h1']
      exact severity_le_two _
    · rw [if_neg h1']
      by_cases h2 : hasRun c.red_days (ks.map fun k => decide (r ≤ k)) = true
      · rw [if_pos h2, if_pos (hasRun_mono hindR h2)]
      · rw [if_neg h2]
        by_cases h2' : hasRun c.red_days (ks.map fun k => decide (r' ≤ k)) = true
        · rw [if_pos h2']
          by_cases h3 : hasRun c.yellow_days (ks.map fun k => decide (y ≤ k)) = true
          · rw [if_pos h3]; simp [Zone.severity]
          · rw [if_neg h3]; simp [Zone.severity]
        · rw [if_neg h2']
          by_cases h3 : hasRun c.yellow_days (ks.map fun k => decide (y ≤ k)) = true
          · rw [if_pos h3, if_pos (hasRun_mono hindY h3)]
          · rw [if_neg h3]
            simp [Zone.severity]

/-- `zone` fails on the empty series: the spike test sees no points and the
first convolution raises on the empty indicator array. -/
lemma zone_nil (c : Config) (y r : ℚ) : zone c [] y r = none := by
  rw [zone]
  simp [indicator, convolveValidOnes]

end KLLeash

namespace VireonQL

/-- `VireonQLConfig` (kl_leash.py lines 32-54): a plain dataclass.  Its
constructor stores the four fields and performs no validation of any kind. -/
structure VireonQLConfig where
  eps_kl : ℝ
  min_scale : ℝ
  max_scale : ℝ
  cov_reg : ℝ

/-- torch tensors of the ranks exercised by the leash: rank 1, rank 2
(`[batch, dim]`, a list of rows), and rank 3 as a representative of higher
ranks.  torch tensors are rectangular; where row lengths matter the
theorems carry shape hypotheses. -/
inductive Tensor where
  | r1 (v : List ℝ)
  | r2 (m : List (List ℝ))
  | r3 (t : List (List (List ℝ)))

/-- `h.ndim`. -/
def Tensor.ndim : Tensor → ℕ
  | .r1 _ => 1
  | .r2 _ => 2
  | .r3 _ => 3

/-- `h.shape` (of rectangular data, as torch guarantees). -/
def Tensor.shape : Tensor → List ℕ
  | .r1 v => [v.length]
  | .r2 m => [m.length, m.headI.length]
  | .r3 t => [t.length, t.headI.length, t.headI.headI.length]

/-- The two ValueError kinds raised by the leash. -/
inductive LeashErr where
  | shapeMismatch
  | rankError
deriving DecidableEq

/-- Arithmetic mean of a list of reals (`.mean()` along a dimension is the
per-column instance of this). -/
noncomputable def lmean (l : List ℝ) : ℝ := l.sum / l.length

/-- Column `j` of a rank-2 batch: the entries of each row at index `j`. -/
def col (m : List (List ℝ)) (j : ℕ) : List ℝ := m.map fun r => r.getD j 0

/-- The trace computation of `_estimate_cov_trace` (kl_leash.py lines
118-121): center each column at its mean, take the per-column mean of
squares (the per-dimension variance), and sum over the `dim` columns. -/
noncomputable def covTraceRaw (m : List (List ℝ)) : ℝ :=
  ((List.range m.headI.length).map fun j =>
    lmean ((col m j).map fun x => (x - lmean (col m j)) ^ 2)).sum

/-- `VireonQLLeash._estimate_cov_trace` (kl_leash.py lines 98-122): raises
a ValueError for any rank other than 2, else returns
`max(trace, cov_reg)`. -/
noncomputable def estimateCovTrace (cfg : VireonQLConfig) :
    Tensor → Except LeashErr ℝ
  | .r2 m => .ok (max (covTraceRaw m) cfg.cov_reg)
  | _ => .error .rankError

/-- `VireonQLLeash._gaussian_kl` (kl_leash.py lines 124-168): the batch-mean
difference `delta`, the isotropic variance `sigma2 = trace_cov / d`, the
regularized inverse, and `0.5 * ||delta||² * inv_sigma`.  (The function also
re-checks shape equality; its only caller `__call__` has already verified
it, so that guard is unreachable and omitted here.) -/
noncomputable def gaussianKL (cfg : VireonQLConfig)
    (mu_new mu_old : List (List ℝ)) (trace_cov : ℝ) : ℝ :=
  let diff := List.zipWith (List.zipWith (fun a b => a - b)) mu_new mu_old
  let d := diff.headI.length
  let delta := (List.range d).map fun j => lmean (col diff j)
  let sigma2 := trace_cov / (d : ℝ)
  let inv_sigma := 1 / (sigma2 + cfg.cov_reg)
  1 / 2 * ((delta.map fun x => x ^ 2).sum * inv_sigma)

/-- The damping interpolation `h_prev + scale * (h_t - h_prev)` (kl_leash.py
line 228), elementwise over the whole batch. -/
def interp (scale : ℝ) (p m : List (List ℝ)) : List (List ℝ) :=
  List.zipWith (fun pr mr =>
    List.zipWith (fun a b => a + scale * (b - a)) pr mr) p m

/-- `VireonQLLeash.__call__` (kl_leash.py lines 173-230): first-step
passthrough when `h_prev` is None; shape equality check; covariance trace
(raising on rank ≠ 2); approximate KL; no damping within budget; otherwise
`scale = max(min_scale, min(max_scale, sqrt(eps_kl / (kl + 1e-12))))` and
linear interpolation.  The stats dict `{kl, scale}` is the returned pair.
Python's `x ** 0.5` equals `Real.sqrt x` for `x ≥ 0`, which holds whenever
`0 < eps_kl` (as hypothesised in every theorem touching this branch). -/
noncomputable def call (cfg : VireonQLConfig) (h_t : Tensor)
    (h_prev : Option Tensor) : Except LeashErr (Tensor × ℝ × ℝ) :=
  match h_prev with
  | none => .ok (h_t, 0, 1)
  | some hp =>
    if h_t.shape = hp.shape then
      (estimateCovTrace cfg h_t).bind fun trace_cov =>
        match h_t, hp with
        | .r2 m, .r2 p =>
          let kl := gaussianKL cfg m p trace_cov
          if kl ≤ cfg.eps_kl then .ok (.r2 m, kl, 1)
          else
            let raw_scale := Real.sqrt (cfg.eps_kl / (kl + 1 / 10 ^ 12))
            let scale := max cfg.min_scale (min cfg.max_scale raw_scale)
            .ok (.r2 (interp scale p m), kl, scale)
        | _, _ => .error .rankError
    else .error .shapeMismatch

/-- The KL estimate as computed inside `__call__` for a rank-2 pair. -/
noncomputable def dampKL (cfg : VireonQLConfig)
    (m p : List (List ℝ)) : ℝ :=
  gaussianKL cfg m p (max (covTraceRaw m) cfg.cov_reg)

/-- The damping scale as computed inside `__call__`. -/
noncomputable def dampScale (cfg : VireonQLConfig)
    (m p : List (List ℝ)) : ℝ :=
  max cfg.min_scale (min cfg.max_scale
    (Real.sqrt (cfg.eps_kl / (dampKL cfg m p + 1 / 10 ^ 12))))

/-- Elementwise difference of two batches. -/
def matSub (a b : List (List ℝ)) : List (List ℝ) :=
  List.zipWith (List.zipWith (fun x y => x - y)) a b

/-- Sum of squared entries of a batch. -/
def sumSq (m : List (List ℝ)) : ℝ :=
  (m.map fun r => (r.map fun x => x ^ 2).sum).sum

/-- Euclidean (Frobenius) distance between two batches. -/
noncomputable def frobDist (a b : List (List ℝ)) : ℝ :=
  Real.sqrt (sumSq (matSub a b))

lemma row_sub_interp (s : ℝ) : ∀ (a b : List ℝ),
    List.zipWith (fun x y => x - y)
      (List.zipWith (fun x y => x + s * (y - x)) a b) a =
      (List.zipWith (fun x y => x - y) b a).map fun x => s * x
  | [], b => by simp
  | a :: as, [] => by simp
  | a :: as, b :: bs => by
    simp only [List.zipWith_cons_cons, List.map_cons, List.cons.injEq]
    exact ⟨by ring, row_sub_interp s as bs⟩

lemma matSub_interp (s : ℝ) : ∀ (p m : List (List ℝ)),
    matSub (interp s p m) p = (matSub m p).map fun r => r.map fun x => s * x
  | [], m => by simp [matSub, interp]
  | p :: ps, [] => by simp [matSub, interp]
  | p :: ps, m :: ms => by
    simp only [matSub, interp, List.zipWith_cons_cons, List.map_cons,
      List.cons.injEq]
    exact ⟨row_sub_interp s p m, matSub_interp s ps ms⟩

lemma sum_map_sq_scale (s : ℝ) (r : List ℝ) :
    ((r.map fun x => s * x).map fun x => x ^ 2).sum =
      s ^ 2 * (r.map fun x => x ^ 2).sum := by
  induction r with
  | nil => simp
  | cons a t ih =>
    simp only [List.map_cons, List.sum_cons, ih]
    ring

lemma sumSq_scale (s : ℝ) (m : List (List ℝ)) :
    sumSq (m.map fun r => r.map fun x => s * x) = s ^ 2 * sumSq m := by
  induction m with
  | nil => simp [sumSq]
  | cons r t ih =>
    simp only [sumSq, List.map_cons, List.sum_cons] at ih ⊢
    rw [sum_map_sq_scale, ih]
    ring

lemma sumSq_nonneg (m : List (List ℝ)) : 0 ≤ sumSq m := by
  refine List.sum_nonneg fun x hx => ?_
  rcases List.mem_map.mp hx with ⟨r, _, rfl⟩
  exact List.sum_nonneg fun y hy => by
    rcases List.mem_map.mp hy with ⟨a, _, rfl⟩
    positivity

lemma except_ok_bind {ε α β : Type} (a : α) (f : α → Except ε β) :
    (Except.ok a).bind f = f a := rfl

lemma except_error_bind {ε α β : Type} (e : ε) (f : α → Except ε β) :
    (Except.error (α := α) e).bind f = Except.error e := rfl

/-- `__call__` on a matching rank-2 pair reduces to the damping decision. -/
lemma call_r2 (cfg : VireonQLConfig) (m p : List (List ℝ))
    (hsh : Tensor.shape (.r2 m) = Tensor.shape (.r2 p)) :
    call cfg (.r2 m) (some (.r2 p)) =
      if dampKL cfg m p ≤ cfg.eps_kl then .ok (.r2 m, dampKL cfg m p, 1)
      else .ok (.r2 (interp (dampScale cfg m p) p m), dampKL cfg m p,
        dampScale cfg m p) := by
  rw [call, if_pos hsh]
  rw [show estimateCovTrace cfg (.r2 m) =
    Except.ok (max (covTraceRaw m) cfg.cov_reg) from rfl]
  rw [except_ok_bind]
  rfl

lemma dampKL_diag_zero (cfg : VireonQLConfig) :
    dampKL cfg [[(0 : ℝ)]] [[(0 : ℝ)]] = 0 := by
  simp [dampKL, gaussianKL, col, lmean]

/-- With equal one-entry batches the step is within any non-negative budget
and passes through unchanged, whatever the rest of the configuration is. -/
lemma call_zero_ok (cfg : VireonQLConfig) (heps : 0 ≤ cfg.eps_kl) :
    call cfg (.r2 [[(0 : ℝ)]]) (some (.r2 [[(0 : ℝ)]])) =
      .ok (.r2 [[(0 : ℝ)]], 0, 1) := by
  rw [call_r2 cfg [[(0 : ℝ)]] [[(0 : ℝ)]] rfl, dampKL_diag_zero,
    if_pos heps]

end VireonQL


end VireonTRP

namespace VireonTRP

/-- Claim C5: for every non-empty raw input vector, the distribution proxy
produced by `KLLeash._to_dist` has every entry at least the floor `eps` and
entries summing to 1.  The sum is exactly 1 and every entry is strictly
positive; the floor lower bound, however, fails (see the counterexample), so
the provable form keeps positivity in place of the floor bound. -/
theorem c5_toDist_pos_entries_sum_one (eps : ℚ) (v : List ℚ)
    (heps : 0 < eps) (hv : v ≠ []) :
    (∀ x ∈ KLLeash.toDist eps v, 0 < x) ∧ (KLLeash.toDist eps v).sum = 1 := by
  have hS : 0 < (KLLeash.clipFloor eps v).sum := KLLeash.clipFloor_sum_pos heps hv
  constructor
  · intro x hx
    rcases List.mem_map.mp hx with ⟨a, ha, rfl⟩
    exact div_pos (lt_of_lt_of_le heps (KLLeash.mem_clipFloor_ge eps ha)) hS
  · rw [KLLeash.toDist, KLLeash.sum_map_div]
    exact div_self (ne_of_gt hS)

/-- Claim C5, counterexample: with the default floor `eps = 1e-9` and the
non-empty raw vector `[1, 10^10]` (clipping is a no-op), the first normalized
entry is `1 / (10^10 + 1) < 1e-9`, so not every entry of the proxy is at
least the floor. -/
theorem c5_floor_counterexample :
    ¬ (∀ x ∈ KLLeash.toDist (1 / 10 ^ 9) [(1 : ℚ), 10 ^ 10],
        1 / 10 ^ 9 ≤ x) := by
  have h1 : max (1 : ℚ) ((10 : ℚ) ^ 9)⁻¹ = 1 := max_eq_left (by norm_num)
  have h2 : max ((10 : ℚ) ^ 10) ((10 : ℚ) ^ 9)⁻¹ = 10 ^ 10 := max_eq_left (by norm_num)
  intro h
  have hm : ((1 : ℚ) / (1 + 10 ^ 10)) ∈
      KLLeash.toDist (1 / 10 ^ 9) [(1 : ℚ), 10 ^ 10] := by
    simp only [KLLeash.toDist, KLLeash.clipFloor, List.map_cons, List.map_nil,
      List.sum_cons, List.sum_nil, one_div, h1, h2, add_zero, List.mem_cons]
    left
    norm_num
  have hle := h _ hm
  norm_num at hle

/-- Witness for C5: the amended invariant evaluated on the concrete vector
`[1, 2, 3]` with the default floor. -/
theorem c5_witness :
    (∀ x ∈ KLLeash.toDist (1 / 10 ^ 9) [(1 : ℚ), 2, 3], 0 < x) ∧
      (KLLeash.toDist (1 / 10 ^ 9) [(1 : ℚ), 2, 3]).sum = 1 :=
  c5_toDist_pos_entries_sum_one (1 / 10 ^ 9) [(1 : ℚ), 2, 3]
    (by norm_num) (by simp)


/-- Claim C8 (amended): divergence (`KLLeash.kl`) fails with a
shape-mismatch (broadcast) error precisely when the two input sequences have
different lengths and neither has length 1; a length-1 operand is stretched
by numpy broadcasting instead of failing. -/
theorem c8_kl_mismatch_iff (eps : ℚ) (St S0 : List ℚ) :
    KLLeash.kl eps St S0 = none ↔
      St.length ≠ S0.length ∧ St.length ≠ 1 ∧ S0.length ≠ 1 :=
  KLLeash.kl_none_iff eps St S0

/-- Claim C8, counterexample: the non-negative inputs `[5]` and `[1, 1]`
have unequal lengths, yet `kl` does not fail — the length-1 distribution is
broadcast against the other, so no shape-mismatch error is raised. -/
theorem c8_counterexample :
    KLLeash.kl (1 / 10 ^ 9) [(5 : ℚ)] [(1 : ℚ), 1] ≠ none := by
  intro h
  have hc := (KLLeash.kl_none_iff _ _ _).mp h
  simp at hc

/-- Claim C10: divergence is invariant under positive rescaling: for every
vector whose entries are at least the floor `eps > 0` and every scalar
`c ≥ 1`, `kl(c·v, v)` is exactly 0 — clipping is a no-op on both inputs and
normalization maps both to the same distribution. -/
theorem c10_kl_scaling_invariance (eps c : ℚ) (v : List ℚ) (heps : 0 < eps)
    (hc : 1 ≤ c) (hv : ∀ x ∈ v, eps ≤ x) :
    KLLeash.kl eps (v.map (fun x => c * x)) v = some 0 := by
  rcases eq_or_ne v [] with rfl | hne
  · simp [KLLeash.kl, KLLeash.toDist, KLLeash.clipFloor, KLLeash.broadcast2]
  · have hsc := KLLeash.toDist_scale heps hc hv
    set p : List ℝ := (KLLeash.toDist eps v).map (Rat.cast : ℚ → ℝ) with hp
    have hpos : ∀ a ∈ p, 0 < a + (eps : ℝ) := by
      intro a ha
      rcases List.mem_map.mp ha with ⟨x, hx, rfl⟩
      have hxq := KLLeash.toDist_mem_pos heps hne hx
      have h0 : (0 : ℝ) < (x : ℝ) := by exact_mod_cast hxq
      have he : (0 : ℝ) < (eps : ℝ) := by exact_mod_cast heps
      linarith
    have hb1 := KLLeash.broadcast2_eq_length
      (f := fun a b => (a + (eps : ℝ)) / (b + (eps : ℝ)))
      (rfl : p.length = p.length)
    have hlen2 : p.length =
        ((List.zipWith (fun a b => (a + (eps : ℝ)) / (b + (eps : ℝ))) p p).map
          Real.log).length := by
      simp [List.length_zipWith]
    have hb2 := KLLeash.broadcast2_eq_length (f := fun a b => a * b) hlen2
    simp only [KLLeash.kl, hsc, ← hp, hb1, Option.some_bind, hb2,
      Option.map_some']
    exact congrArg some (KLLeash.zip_log_ratio_sum_zero (eps : ℝ) p hpos)

/-- Witness for C10 at `v = [1, 2]`, `c = 2`, floor `1e-9`. -/
theorem c10_witness :
    KLLeash.kl (1 / 10 ^ 9) ([(1 : ℚ), 2].map (fun x => 2 * x)) [(1 : ℚ), 2]
      = some 0 :=
  c10_kl_scaling_invariance (1 / 10 ^ 9) 2 [(1 : ℚ), 2] (by norm_num)
    (by norm_num) (by
      intro x hx
      rcases List.mem_cons.mp hx with rfl | hx
      · norm_num
      · rcases List.mem_cons.mp hx with rfl | hx
        · norm_num
        · simp at hx)

/-- Claim C2 (amended): on every non-empty divergence series, with positive
warning and critical windows, `classify` (KLLeash.zone) returns exactly the
result of the spec's four-step policy evaluated in precedence order, where a
qualifying run means consecutive points at/above the threshold.  (On the
empty series the policy says STABLE but `zone` fails; see the
counterexample.) -/
theorem c2_zone_eq_policy (c : KLLeash.Config) (ks : List ℚ) (y r : ℚ)
    (hks : ks ≠ []) (hyw : 1 ≤ c.yellow_days) (hrw : 1 ≤ c.red_days) :
    KLLeash.zone c ks y r = some (KLLeash.zoneSpec c ks y r) :=
  KLLeash.zone_eq_zoneSpec c ks y r hks hyw hrw

/-- Claim C2, counterexample: on the empty divergence series the four-step
policy returns STABLE, but `zone` raises (numpy `convolve` rejects an empty
signal), so `classify` does not return the policy's result on every
series. -/
theorem c2_counterexample :
    KLLeash.zone ⟨1 / 10 ^ 9, 2, 3⟩ [] (15 / 100) (1 / 2) ≠
      some (KLLeash.zoneSpec ⟨1 / 10 ^ 9, 2, 3⟩ [] (15 / 100) (1 / 2)) := by
  rw [KLLeash.zone_nil]
  simp

/-- Witness for C2 on the repository's own test series
`[0.1, 0.2, 0.2, 0.2]` with thresholds 0.15 / 0.5 and windows 2 / 3. -/
theorem c2_witness :
    KLLeash.zone ⟨1 / 10 ^ 9, 2, 3⟩ [1 / 10, 2 / 10, 2 / 10, 2 / 10]
        (15 / 100) (1 / 2) =
      some (KLLeash.zoneSpec ⟨1 / 10 ^ 9, 2, 3⟩
        [1 / 10, 2 / 10, 2 / 10, 2 / 10] (15 / 100) (1 / 2)) :=
  c2_zone_eq_policy ⟨1 / 10 ^ 9, 2, 3⟩ [1 / 10, 2 / 10, 2 / 10, 2 / 10]
    (15 / 100) (1 / 2) (by simp) (by decide) (by decide)

/-- Claim C6 (amended): `classify` (KLLeash.zone) applied to an empty
divergence series fails with an error (the empty-array convolution raises)
rather than returning STABLE, for every configuration and thresholds. -/
theorem c6_zone_empty_fails (c : KLLeash.Config) (y r : ℚ) :
    KLLeash.zone c [] y r = none :=
  KLLeash.zone_nil c y r

/-- Claim C6, counterexample: with windows 2 and 3 and thresholds 0.1 / 1,
`zone` on the empty series does not return STABLE (GREEN): it fails. -/
theorem c6_counterexample :
    KLLeash.zone ⟨1 / 10 ^ 9, 2, 3⟩ [] (1 / 10) 1 ≠
      some KLLeash.Zone.GREEN := by
  rw [KLLeash.zone_nil]
  simp

/-- Claim C4: `classify` (KLLeash.zone) is monotone in threshold severity:
for a fixed series and fixed windows, lowering the warning and/or critical
thresholds never yields a less severe zone (STABLE < WARNING < CRITICAL),
whenever zones are returned at all. -/
theorem c4_zone_threshold_mono (c : KLLeash.Config) (ks : List ℚ)
    {y y' r r' : ℚ} (z z' : KLLeash.Zone) (hy : y' ≤ y) (hr : r' ≤ r)
    (hz : KLLeash.zone c ks y r = some z)
    (hz' : KLLeash.zone c ks y' r' = some z') :
    z.severity ≤ z'.severity := by
  by_cases hs : (ks.any fun k => decide (2 * r ≤ k)) = true
  · have hzr : z = .RED := by
      rw [KLLeash.zone, if_pos hs] at hz
      exact (Option.some.inj hz).symm
    have hzr' : z' = .RED := by
      rw [KLLeash.zone, if_pos (KLLeash.spike_mono hr hs)] at hz'
      exact (Option.some.inj hz').symm
    rw [hzr, hzr']
  · have hz0 := hz
    rw [KLLeash.zone, if_neg hs] at hz0
    cases hY : KLLeash.convolveValidOnes c.yellow_days
        (KLLeash.indicator y ks) with
    | none => rw [hY] at hz0; simp at hz0
    | some cvY =>
      rw [hY, Option.some_bind] at hz0
      cases hR : KLLeash.convolveValidOnes c.red_days
          (KLLeash.indicator r ks) with
      | none => rw [hR] at hz0; simp at hz0
      | some cvR =>
        obtain ⟨hyw, hylen⟩ := KLLeash.convolve_some_conditions hY
        obtain ⟨hrw, _⟩ := KLLeash.convolve_some_conditions hR
        have hks : ks ≠ [] := by
          intro hnil
          rw [hnil] at hylen
          simp [KLLeash.indicator] at hylen
        have he := KLLeash.zone_eq_zoneSpec c ks y r hks
          (by omega) (by omega)
        have he' := KLLeash.zone_eq_zoneSpec c ks y' r' hks
          (by omega) (by omega)
        rw [he] at hz
        rw [he'] at hz'
        rw [← Option.some.inj hz, ← Option.some.inj hz']
        exact KLLeash.zoneSpec_severity_mono c ks hy hr

/-- Witness for C4: on the test series, thresholds (0.15, 0.5) give YELLOW
and the lowered thresholds (0.01, 0.2) give RED — severity increased. -/
theorem c4_witness :
    KLLeash.zone ⟨1 / 10 ^ 9, 2, 3⟩ [1 / 10, 2 / 10, 2 / 10, 2 / 10]
        (15 / 100) (1 / 2) = some KLLeash.Zone.YELLOW ∧
      KLLeash.zone ⟨1 / 10 ^ 9, 2, 3⟩ [1 / 10, 2 / 10, 2 / 10, 2 / 10]
        (1 / 100) (2 / 10) = some KLLeash.Zone.RED ∧
      KLLeash.Zone.severity KLLeash.Zone.YELLOW ≤
        KLLeash.Zone.severity KLLeash.Zone.RED := by
  have hiY : KLLeash.indicator (15 / 100) [1 / 10, 2 / 10, 2 / 10, 2 / 10] =
      [0, 1, 1, 1] := by
    simp [KLLeash.indicator]; norm_num
  have hiR : KLLeash.indicator (1 / 2) [1 / 10, 2 / 10, 2 / 10, 2 / 10] =
      [0, 0, 0, 0] := by
    simp [KLLeash.indicator]; norm_num
  have hiY' : KLLeash.indicator (1 / 100) [1 / 10, 2 / 10, 2 / 10, 2 / 10] =
      [1, 1, 1, 1] := by
    simp [KLLeash.indicator]; norm_num
  have hiR' : KLLeash.indicator (2 / 10) [1 / 10, 2 / 10, 2 / 10, 2 / 10] =
      [0, 1, 1, 1] := by
    simp [KLLeash.indicator]; norm_num
  have hsp : ([(1 : ℚ) / 10, 2 / 10, 2 / 10, 2 / 10].any
      fun k => decide (2 * ((1 : ℚ) / 2) ≤ k)) = false := by
    simp only [List.any_cons, List.any_nil, Bool.or_eq_false_iff]
    norm_num
  have hsp' : ([(1 : ℚ) / 10, 2 / 10, 2 / 10, 2 / 10].any
      fun k => decide (2 * ((2 : ℚ) / 10) ≤ k)) = false := by
    simp only [List.any_cons, List.any_nil, Bool.or_eq_false_iff]
    norm_num
  have hz : KLLeash.zone ⟨1 / 10 ^ 9, 2, 3⟩ [1 / 10, 2 / 10, 2 / 10, 2 / 10]
      (15 / 100) (1 / 2) = some KLLeash.Zone.YELLOW := by
    rw [KLLeash.zone, hsp, if_neg Bool.false_ne_true, hiY, hiR]
    decide
  have hz' : KLLeash.zone ⟨1 / 10 ^ 9, 2, 3⟩ [1 / 10, 2 / 10, 2 / 10, 2 / 10]
      (1 / 100) (2 / 10) = some KLLeash.Zone.RED := by
    rw [KLLeash.zone, hsp', if_neg Bool.false_ne_true, hiY', hiR']
    decide
  exact ⟨hz, hz',
    c4_zone_threshold_mono ⟨1 / 10 ^ 9, 2, 3⟩ [1 / 10, 2 / 10, 2 / 10, 2 / 10]
      KLLeash.Zone.YELLOW KLLeash.Zone.RED (by norm_num) (by norm_num) hz hz'⟩

/-- Claim C1: for every call of apply with matching 2-D batches where the
estimated divergence exceeds the budget (and a well-formed scale range
`0 < min_scale ≤ 1`, `min_scale ≤ max_scale`, positive budget), the returned
scale is `sqrt(eps_kl / (kl + 1e-12))` clamped into
`[min_scale, max_scale]`, hence lies in that range; the output batch is
`previous + scale * (current - previous)` elementwise; and the Euclidean
distance from the output to the previous batch is at most that from the
current batch to the previous batch. -/
theorem c1_damped_step (cfg : VireonQL.VireonQLConfig)
    (m p : List (List ℝ)) (hmn0 : 0 < cfg.min_scale)
    (hmn1 : cfg.min_scale ≤ 1) (hmx : cfg.min_scale ≤ cfg.max_scale)
    (heps : 0 < cfg.eps_kl)
    (hsh : VireonQL.Tensor.shape (.r2 m) = VireonQL.Tensor.shape (.r2 p))
    (hkl : cfg.eps_kl < VireonQL.dampKL cfg m p) :
    VireonQL.call cfg (.r2 m) (some (.r2 p)) =
      .ok (.r2 (VireonQL.interp (VireonQL.dampScale cfg m p) p m),
        VireonQL.dampKL cfg m p, VireonQL.dampScale cfg m p) ∧
    cfg.min_scale ≤ VireonQL.dampScale cfg m p ∧
    VireonQL.dampScale cfg m p ≤ cfg.max_scale ∧
    VireonQL.frobDist (VireonQL.interp (VireonQL.dampScale cfg m p) p m) p ≤
      VireonQL.frobDist m p := by
  have hkl0 : 0 < VireonQL.dampKL cfg m p := lt_trans heps hkl
  have hden : 0 < VireonQL.dampKL cfg m p + 1 / 10 ^ 12 := by positivity
  have hratio : cfg.eps_kl / (VireonQL.dampKL cfg m p + 1 / 10 ^ 12) ≤ 1 := by
    rw [div_le_one hden]
    linarith
  have hraw1 :
      Real.sqrt (cfg.eps_kl / (VireonQL.dampKL cfg m p + 1 / 10 ^ 12)) ≤ 1 :=
    Real.sqrt_le_one.mpr hratio
  have hs_lb : cfg.min_scale ≤ VireonQL.dampScale cfg m p :=
    le_max_left _ _
  have hs_ub : VireonQL.dampScale cfg m p ≤ cfg.max_scale :=
    max_le hmx (min_le_left _ _)
  have hs_one : VireonQL.dampScale cfg m p ≤ 1 :=
    max_le hmn1 (le_trans (min_le_right _ _) hraw1)
  have hs_nn : 0 ≤ VireonQL.dampScale cfg m p := le_trans hmn0.le hs_lb
  refine ⟨?_, hs_lb, hs_ub, ?_⟩
  · rw [VireonQL.call_r2 cfg m p hsh, if_neg (not_le.mpr hkl)]
  · rw [VireonQL.frobDist, VireonQL.frobDist, VireonQL.matSub_interp,
      VireonQL.sumSq_scale]
    apply Real.sqrt_le_sqrt
    have h1 : VireonQL.dampScale cfg m p ^ 2 ≤ 1 := by nlinarith
    have h0 := VireonQL.sumSq_nonneg (VireonQL.matSub m p)
    nlinarith

/-- Witness for C1: a unit batch step from `[[0]]` to `[[1]]` under the
default configuration; the estimated divergence is 2500, far above the
0.012 budget. -/
theorem c1_witness :
    VireonQL.call ⟨12 / 1000, 1 / 10, 1, 1 / 10000⟩ (.r2 [[(1 : ℝ)]])
        (some (.r2 [[(0 : ℝ)]])) =
      .ok (.r2 (VireonQL.interp
          (VireonQL.dampScale ⟨12 / 1000, 1 / 10, 1, 1 / 10000⟩
            [[(1 : ℝ)]] [[(0 : ℝ)]]) [[(0 : ℝ)]] [[(1 : ℝ)]]),
        VireonQL.dampKL ⟨12 / 1000, 1 / 10, 1, 1 / 10000⟩
          [[(1 : ℝ)]] [[(0 : ℝ)]],
        VireonQL.dampScale ⟨12 / 1000, 1 / 10, 1, 1 / 10000⟩
          [[(1 : ℝ)]] [[(0 : ℝ)]]) ∧
    (⟨12 / 1000, 1 / 10, 1, 1 / 10000⟩ :
        VireonQL.VireonQLConfig).min_scale ≤
      VireonQL.dampScale ⟨12 / 1000, 1 / 10, 1, 1 / 10000⟩
        [[(1 : ℝ)]] [[(0 : ℝ)]] ∧
    VireonQL.dampScale ⟨12 / 1000, 1 / 10, 1, 1 / 10000⟩
        [[(1 : ℝ)]] [[(0 : ℝ)]] ≤
      (⟨12 / 1000, 1 / 10, 1, 1 / 10000⟩ :
        VireonQL.VireonQLConfig).max_scale ∧
    VireonQL.frobDist (VireonQL.interp
        (VireonQL.dampScale ⟨12 / 1000, 1 / 10, 1, 1 / 10000⟩
          [[(1 : ℝ)]] [[(0 : ℝ)]]) [[(0 : ℝ)]] [[(1 : ℝ)]]) [[(0 : ℝ)]] ≤
      VireonQL.frobDist [[(1 : ℝ)]] [[(0 : ℝ)]] := by
  have hct : VireonQL.covTraceRaw [[(1 : ℝ)]] = 0 := by
    simp [VireonQL.covTraceRaw, VireonQL.col, VireonQL.lmean]
  have hklv : VireonQL.dampKL ⟨12 / 1000, 1 / 10, 1, 1 / 10000⟩
      [[(1 : ℝ)]] [[(0 : ℝ)]] = 2500 := by
    rw [VireonQL.dampKL, hct,
      max_eq_right (by norm_num : (0 : ℝ) ≤ 1 / 10000)]
    simp [VireonQL.gaussianKL, VireonQL.col, VireonQL.lmean, List.range_succ, List.range_zero]
    norm_num
  exact c1_damped_step ⟨12 / 1000, 1 / 10, 1, 1 / 10000⟩
    [[(1 : ℝ)]] [[(0 : ℝ)]] (by norm_num) (by norm_num) (by norm_num)
    (by norm_num) rfl (by rw [hklv]; norm_num)

/-- Claim C3: apply performs no damping in the two no-drift situations:
with no previous batch it returns the input unchanged with divergence 0.0
and scale 1.0; with a matching previous batch and divergence within the
budget it returns the input unchanged with scale 1.0. -/
theorem c3_no_damping (cfg : VireonQL.VireonQLConfig)
    (m p : List (List ℝ))
    (hsh : VireonQL.Tensor.shape (.r2 m) = VireonQL.Tensor.shape (.r2 p))
    (hkl : VireonQL.dampKL cfg m p ≤ cfg.eps_kl) :
    (∀ t : VireonQL.Tensor, VireonQL.call cfg t none = .ok (t, 0, 1)) ∧
    VireonQL.call cfg (.r2 m) (some (.r2 p)) =
      .ok (.r2 m, VireonQL.dampKL cfg m p, 1) := by
  refine ⟨fun t => rfl, ?_⟩
  rw [VireonQL.call_r2 cfg m p hsh, if_pos hkl]

/-- Witness for C3: a first step on a 1-D tensor passes through, and an
in-budget step on `[[0]]` passes through with scale 1. -/
theorem c3_witness :
    VireonQL.call ⟨12 / 1000, 1 / 10, 1, 1 / 10000⟩ (.r1 [(5 : ℝ)]) none =
      .ok (.r1 [(5 : ℝ)], 0, 1) ∧
    VireonQL.call ⟨12 / 1000, 1 / 10, 1, 1 / 10000⟩ (.r2 [[(0 : ℝ)]])
        (some (.r2 [[(0 : ℝ)]])) =
      .ok (.r2 [[(0 : ℝ)]],
        VireonQL.dampKL ⟨12 / 1000, 1 / 10, 1, 1 / 10000⟩
          [[(0 : ℝ)]] [[(0 : ℝ)]], 1) :=
  have h := c3_no_damping ⟨12 / 1000, 1 / 10, 1, 1 / 10000⟩
    [[(0 : ℝ)]] [[(0 : ℝ)]] rfl
    (by rw [VireonQL.dampKL_diag_zero]; norm_num)
  ⟨h.1 (.r1 [(5 : ℝ)]), h.2⟩

/-- Claim C7 (amended): apply performs no input normalization.  A rank
other than 2 is never reshaped: with a previous batch present, mismatched
shapes fail with a shape error, matching shapes of rank ≠ 2 (including 1-D
vectors) fail with a rank error, and with the previous batch absent every
input is returned unchanged regardless of rank. -/
theorem c7_rank_handling (cfg : VireonQL.VireonQLConfig)
    (t pt : VireonQL.Tensor) :
    (VireonQL.Tensor.shape t ≠ VireonQL.Tensor.shape pt →
      VireonQL.call cfg t (some pt) = .error .shapeMismatch) ∧
    (VireonQL.Tensor.shape t = VireonQL.Tensor.shape pt →
      VireonQL.Tensor.ndim t ≠ 2 →
      VireonQL.call cfg t (some pt) = .error .rankError) ∧
    VireonQL.call cfg t none = .ok (t, 0, 1) := by
  refine ⟨?_, ?_, rfl⟩
  · intro h
    rw [VireonQL.call, if_neg h]
  · intro hsh hnd
    rw [VireonQL.call, if_pos hsh]
    cases t with
    | r1 v =>
      rw [show VireonQL.estimateCovTrace cfg (.r1 v) =
        Except.error .rankError from rfl, VireonQL.except_error_bind]
    | r2 m => exact absurd rfl hnd
    | r3 t3 =>
      rw [show VireonQL.estimateCovTrace cfg (.r3 t3) =
        Except.error .rankError from rfl, VireonQL.except_error_bind]

/-- Claim C7, counterexample: the 1-D vector `[0]` with a matching 1-D
previous state is NOT treated as the batch-of-1 `[[0]]`: the 1-D call
fails with a rank error while the batch-of-1 call succeeds. -/
theorem c7_counterexample :
    VireonQL.call ⟨12 / 1000, 1 / 10, 1, 1 / 10000⟩ (.r1 [(0 : ℝ)])
        (some (.r1 [(0 : ℝ)])) ≠
      VireonQL.call ⟨12 / 1000, 1 / 10, 1, 1 / 10000⟩ (.r2 [[(0 : ℝ)]])
        (some (.r2 [[(0 : ℝ)]])) := by
  have hL : VireonQL.call ⟨12 / 1000, 1 / 10, 1, 1 / 10000⟩ (.r1 [(0 : ℝ)])
      (some (.r1 [(0 : ℝ)])) = .error .rankError := by
    rw [VireonQL.call, if_pos rfl]
    rfl
  have hR := VireonQL.call_zero_ok ⟨12 / 1000, 1 / 10, 1, 1 / 10000⟩
    (by norm_num)
  rw [hL, hR]
  simp

/-- Witness for C7 at concrete tensors: a shape mismatch errors, a matching
1-D pair errors with the rank error, and a 3-D first step passes
through. -/
theorem c7_witness :
    VireonQL.call ⟨12 / 1000, 1 / 10, 1, 1 / 10000⟩ (.r2 [[(0 : ℝ)]])
        (some (.r1 [(0 : ℝ), 1])) = .error .shapeMismatch ∧
    VireonQL.call ⟨12 / 1000, 1 / 10, 1, 1 / 10000⟩ (.r1 [(3 : ℝ)])
        (some (.r1 [(4 : ℝ)])) = .error .rankError ∧
    VireonQL.call ⟨12 / 1000, 1 / 10, 1, 1 / 10000⟩ (.r3 [[[(7 : ℝ)]]])
        none = .ok (.r3 [[[(7 : ℝ)]]], 0, 1) :=
  ⟨(c7_rank_handling ⟨12 / 1000, 1 / 10, 1, 1 / 10000⟩ (.r2 [[(0 : ℝ)]])
      (.r1 [(0 : ℝ), 1])).1 (by decide),
   (c7_rank_handling ⟨12 / 1000, 1 / 10, 1, 1 / 10000⟩ (.r1 [(3 : ℝ)])
      (.r1 [(4 : ℝ)])).2.1 rfl (by decide),
   (c7_rank_handling ⟨12 / 1000, 1 / 10, 1, 1 / 10000⟩ (.r3 [[[(7 : ℝ)]]])
      (.r3 [[[(7 : ℝ)]]])).2.2⟩

/-- Claim C9 (amended): invalid configuration values are NOT rejected at
construction time.  `VireonQLConfig` and `KLLeash.__init__` are plain field
stores with no validation, and calls proceed with invalid configurations:
`apply` runs normally with `min_scale` outside `(0,1]`,
`max_scale < min_scale` and negative `cov_reg`, and `zone` can return a
result with zero (non-positive) window sizes. -/
theorem c9_no_construction_validation (ms Ms cr : ℝ) (eps : ℚ)
    (_hcr : cr < 0) :
    VireonQL.call ⟨12 / 1000, ms, Ms, cr⟩ (.r2 [[(0 : ℝ)]])
        (some (.r2 [[(0 : ℝ)]])) = .ok (.r2 [[(0 : ℝ)]], 0, 1) ∧
    (KLLeash.kl eps [1] [1]).isSome = true ∧
    KLLeash.zone ⟨eps, 0, 0⟩ [1] 0 (1 / 2) = some KLLeash.Zone.RED := by
  refine ⟨VireonQL.call_zero_ok ⟨12 / 1000, ms, Ms, cr⟩ (by norm_num),
    ?_, ?_⟩
  · rw [Option.isSome_iff_ne_none]
    intro h
    have hc := (KLLeash.kl_none_iff eps [1] [1]).mp h
    simp at hc
  · rw [KLLeash.zone, if_pos ?_]
    simp only [List.any_cons, List.any_nil, Bool.or_false]
    exact decide_eq_true (by norm_num)

/-- Claim C9, counterexample: a configuration with `min_scale = 2` outside
`(0,1]`, `max_scale = 1/2 < min_scale` and negative `cov_reg` is accepted
and a call proceeds normally with it, returning a damped-free result. -/
theorem c9_counterexample :
    VireonQL.call ⟨12 / 1000, 2, 1 / 2, -(1 / 10000)⟩ (.r2 [[(0 : ℝ)]])
        (some (.r2 [[(0 : ℝ)]])) = .ok (.r2 [[(0 : ℝ)]], 0, 1) :=
  VireonQL.call_zero_ok ⟨12 / 1000, 2, 1 / 2, -(1 / 10000)⟩ (by norm_num)

/-- Witness for C9: the amended claim at the concrete invalid configuration
`min_scale = 2`, `max_scale = 1/2`, `cov_reg = -1e-4`, floor `1e-9`. -/
theorem c9_witness :
    VireonQL.call ⟨12 / 1000, 2, 1 / 2, -(1 / 10000)⟩ (.r2 [[(0 : ℝ)]])
        (some (.r2 [[(0 : ℝ)]])) = .ok (.r2 [[(0 : ℝ)]], 0, 1) ∧
    (KLLeash.kl (1 / 10 ^ 9) [1] [1]).isSome = true ∧
    KLLeash.zone ⟨1 / 10 ^ 9, 0, 0⟩ [1] 0 (1 / 2) =
      some KLLeash.Zone.RED :=
  c9_no_construction_validation 2 (1 / 2) (-(1 / 10000)) (1 / 10 ^ 9)
    (by norm_num)

end VireonTRP
